import Mathlib

/-!
Verification of the relevance-filtered conversational context engine of the
Weave repository: the BM25 ranking calculator (services/aichat/pkg/bm25.go),
the streaming chat loops (services/aichat/internal/service/chat_service_impl.go
and services/aichat/cmd/main.go), the tool-call model gate
(services/aichat/internal/model), and the hand-rolled base64 encoder
(services/email/email_service.go).

Floating-point values of the Go source are modelled as real numbers.
Tokenization delegates in the source to the external prose library; it is
modelled throughout as an abstract parameter tok perhaps composed with the
lower-casing and length filter of BM25Calculator.tokenize.
-/

/-! ## BM25Calculator (services/aichat/pkg/bm25.go) -/

/-- State of a BM25Calculator. The Go struct stores documents, per-document
token counts, the average document length (float64), the document-frequency
and total-occurrence maps, the document total and the two parameters. Maps
are modelled as total functions defaulting to zero, matching Go map reads of
missing keys. The bm25Cache field is never read by any method in the source
and is omitted. -/
@[ext] structure BM25Calculator where
  documents : List String
  docLengths : List Nat
  avgDocLength : ℝ
  docFreq : String → Nat
  vocabulary : String → Nat
  totalDocs : Nat
  k1 : ℝ
  b : ℝ

/-- Number of documents of the corpus containing the token, as accumulated by
buildVocabulary over the uniqueWords set of each document. -/
def countDocFreq (tok : String → List String) (documents : List String) (w : String) : Nat :=
  documents.countP (fun d => decide (w ∈ tok d))

/-- Total number of occurrences of the token across the corpus, as accumulated
into the vocabulary map by buildVocabulary. -/
def countVocab (tok : String → List String) (documents : List String) (w : String) : Nat :=
  ((documents.map tok).flatten).count w

/-- NewBM25Calculator followed by buildVocabulary: fills docLengths, the
docFreq and vocabulary maps, avgDocLength (left at zero for an empty corpus)
and totalDocs, with the recommended parameters k1 = 1.5 and b = 0.75. -/
noncomputable def NewBM25Calculator (tok : String → List String) (documents : List String) :
    BM25Calculator where
  documents := documents
  docLengths := documents.map (fun d => (tok d).length)
  avgDocLength :=
    if 0 < documents.length then
      ((documents.map (fun d => (tok d).length)).sum : ℝ) / (documents.length : ℝ)
    else 0
  docFreq := fun w => countDocFreq tok documents w
  vocabulary := fun w => countVocab tok documents w
  totalDocs := documents.length
  k1 := 1.5
  b := 0.75

/-- AddDocument: appends the document, appends its token count to docLengths,
recomputes avgDocLength over the new docLengths array, bumps vocabulary by
every token occurrence and docFreq by every distinct token, and sets
totalDocs to the new document count. -/
noncomputable def AddDocument (tok : String → List String) (c : BM25Calculator)
    (doc : String) : BM25Calculator :=
  let words := tok doc
  let docLengths := c.docLengths ++ [words.length]
  { documents := c.documents ++ [doc]
    docLengths := docLengths
    avgDocLength := ((docLengths.sum : ℝ)) / ((docLengths.length : ℝ))
    docFreq := fun w => c.docFreq w + (if w ∈ words then 1 else 0)
    vocabulary := fun w => c.vocabulary w + words.count w
    totalDocs := c.documents.length + 1
    k1 := c.k1
    b := c.b }

/-- calculateIDF: returns 0 for an empty corpus; floors df at 1; computes
math.Log(float64(totalDocs - df) + 0.5) / (float64(df) + 0.5) — note that in
the source the division stands outside the logarithm — and clamps at 0. -/
noncomputable def calculateIDF (c : BM25Calculator) (word : String) : ℝ :=
  if c.totalDocs = 0 then 0
  else
    let df := if c.docFreq word = 0 then 1 else c.docFreq word
    max 0 (Real.log ((c.totalDocs : ℝ) - (df : ℝ) + 0.5) / ((df : ℝ) + 0.5))

/-- calculateBM25Score: sums, over the query tokens, the contribution
idf * tf*(k1+1) / (tf + k1*(1 - b + b*docLen/avgDocLen)) of every query token
with positive term frequency in the indexed document. Out-of-range indices
read zero length and an empty document text, as the Go code would panic there;
the claims only use in-range indices. -/
noncomputable def calculateBM25Score (tok : String → List String) (c : BM25Calculator)
    (queryWords : List String) (docIndex : Nat) : ℝ :=
  let docLength := c.docLengths.getD docIndex 0
  let docWords := tok (c.documents.getD docIndex "")
  (queryWords.map (fun word =>
    let idf := calculateIDF c word
    let tf := docWords.count word
    if 0 < tf then
      idf * ((tf : ℝ) * (c.k1 + 1)) /
        ((tf : ℝ) + c.k1 * (1 - c.b + c.b * (docLength : ℝ) / c.avgDocLength))
    else 0)).sum

/-- Importance score assigned to one token of a text by ExtractKeywords:
idf * (freq / totalTokenCount) * ln(totalDocs + 1). -/
noncomputable def extractScore (tok : String → List String) (c : BM25Calculator)
    (text : String) (w : String) : ℝ :=
  calculateIDF c w * (((tok text).count w : ℝ) / ((tok text).length : ℝ)) *
    Real.log ((c.totalDocs : ℝ) + 1)

/-- ExtractKeywords: scores every distinct token of the text, sorts by score
descending with sort.Slice and keeps the first topN. The Go code builds the
slice by ranging over the wordFreq map, whose iteration order Go randomizes
between runs; that order is the explicit parameter `order`, constrained in the
theorems to enumerate the distinct tokens of the text. sort.Slice with the
strict comparator is modelled by insertion sort on the slice in that order. -/
noncomputable def ExtractKeywords (tok : String → List String) (c : BM25Calculator)
    (order : List String) (text : String) (topN : Nat) : List String :=
  let sorted := (order.map (fun w => (w, extractScore tok c text w))).insertionSort
    (fun x y => x.2 > y.2)
  (sorted.take topN).map Prod.fst

/-- AddDocument on a freshly built calculator equals rebuilding from scratch
over the extended corpus: every stored field coincides. -/
theorem addDocument_eq_rebuild (tok : String → List String) (corpus : List String)
    (doc : String) :
    AddDocument tok (NewBM25Calculator tok corpus) doc =
      NewBM25Calculator tok (corpus ++ [doc]) := by
  refine BM25Calculator.ext rfl ?_ ?_ ?_ ?_ ?_ rfl rfl
  · simp [AddDocument, NewBM25Calculator]
  · simp only [AddDocument, NewBM25Calculator, List.map_append, List.map_cons, List.map_nil,
      List.sum_append, List.sum_cons, List.sum_nil, List.length_append, List.length_map,
      List.length_cons, List.length_nil, Nat.succ_pos, if_true, Nat.add_zero, Nat.zero_add,
      add_zero]
  · funext w
    by_cases h : w ∈ tok doc <;>
      simp [AddDocument, NewBM25Calculator, countDocFreq, List.countP_append,
        List.countP_cons, h]
  · funext w
    simp [AddDocument, NewBM25Calculator, countVocab, List.count_append]
  · simp [AddDocument, NewBM25Calculator]

/-- C3: after AddDocument on a freshly indexed corpus, every query scored
against every document index yields exactly the score of a calculator rebuilt
over the extended corpus; indeed the whole calculator states coincide. -/
theorem addDocument_score_eq_rebuild (tok : String → List String) (corpus : List String)
    (doc : String) (queryWords : List String) (docIndex : Nat) :
    calculateBM25Score tok (AddDocument tok (NewBM25Calculator tok corpus) doc)
        queryWords docIndex =
      calculateBM25Score tok (NewBM25Calculator tok (corpus ++ [doc])) queryWords docIndex ∧
    AddDocument tok (NewBM25Calculator tok corpus) doc =
      NewBM25Calculator tok (corpus ++ [doc]) :=
  ⟨by rw [addDocument_eq_rebuild], addDocument_eq_rebuild tok corpus doc⟩

/-- The average document length of a freshly built calculator is non-negative. -/
lemma avgDocLength_nonneg (tok : String → List String) (corpus : List String) :
    0 ≤ (NewBM25Calculator tok corpus).avgDocLength := by
  simp only [NewBM25Calculator]
  split_ifs
  · positivity
  · exact le_refl 0

/-- calculateIDF clamps at zero, so it is never negative. -/
lemma calculateIDF_nonneg (c : BM25Calculator) (word : String) :
    0 ≤ calculateIDF c word := by
  unfold calculateIDF
  split_ifs
  all_goals first
  | exact le_refl 0
  | exact le_max_left 0 _

/-- C4: scores of a freshly indexed corpus are non-negative, and zero whenever
the document tokenizes to the empty sequence or shares no token with the
query. -/
theorem calculateBM25Score_nonneg_and_zero (tok : String → List String)
    (corpus : List String) (queryWords : List String) (docIndex : Nat) :
    0 ≤ calculateBM25Score tok (NewBM25Calculator tok corpus) queryWords docIndex ∧
    ((tok (corpus.getD docIndex "") = [] ∨
        ∀ w ∈ queryWords, w ∉ tok (corpus.getD docIndex "")) →
      calculateBM25Score tok (NewBM25Calculator tok corpus) queryWords docIndex = 0) := by
  have hdocs : (NewBM25Calculator tok corpus).documents = corpus := rfl
  constructor
  · unfold calculateBM25Score
    apply List.sum_nonneg
    intro x hx
    simp only [List.mem_map] at hx
    obtain ⟨w, hw, rfl⟩ := hx
    split_ifs with h
    · have havg := avgDocLength_nonneg tok corpus
      have hk1 : (NewBM25Calculator tok corpus).k1 = 1.5 := rfl
      have hb : (NewBM25Calculator tok corpus).b = 0.75 := rfl
      rw [hk1, hb, hdocs]
      apply div_nonneg
      · apply mul_nonneg (calculateIDF_nonneg _ _)
        positivity
      · have h1 : (0:ℝ) ≤ 0.75 *
            (((NewBM25Calculator tok corpus).docLengths.getD docIndex 0 : ℝ)) /
            (NewBM25Calculator tok corpus).avgDocLength :=
          div_nonneg (by positivity) havg
        have h2 : (0:ℝ) ≤
            ((tok (corpus.getD docIndex "")).count w : ℝ) := by positivity
        linarith
    · exact le_refl 0
  · intro hcase
    have hzero : ∀ w ∈ queryWords, List.count w (tok (corpus.getD docIndex "")) = 0 := by
      intro w hw
      rcases hcase with hempty | hdisj
      · rw [hempty]
        exact List.count_nil w
      · exact List.count_eq_zero_of_not_mem (hdisj w hw)
    unfold calculateBM25Score
    apply List.sum_eq_zero
    intro x hx
    simp only [List.mem_map] at hx
    obtain ⟨w, hw, rfl⟩ := hx
    rw [hdocs, hzero w hw]
    simp

/-- Concrete stand-in for the prose-based tokenizer, defined on the documents
and texts used by the concrete instances below. -/
def sampleTok : String → List String := fun s =>
  if s = "aa bb" then ["aa", "bb"]
  else if s = "aa cc" then ["aa", "cc"]
  else if s = "aa" then ["aa"]
  else []

/-- Witness for C4: over the corpus of the two documents "aa bb" and "aa cc",
the query token "zz" occurs in neither document, so scoring it against
document 0 is non-negative and equal to zero. -/
theorem calculateBM25Score_nonneg_and_zero_witness :
    0 ≤ calculateBM25Score sampleTok (NewBM25Calculator sampleTok ["aa bb", "aa cc"])
        ["zz"] 0 ∧
    calculateBM25Score sampleTok (NewBM25Calculator sampleTok ["aa bb", "aa cc"])
        ["zz"] 0 = 0 :=
  ⟨(calculateBM25Score_nonneg_and_zero sampleTok ["aa bb", "aa cc"] ["zz"] 0).1,
   (calculateBM25Score_nonneg_and_zero sampleTok ["aa bb", "aa cc"] ["zz"] 0).2
     (Or.inr (by decide))⟩

/-- C1: the IDF computed by calculateIDF diverges from the specified formula
max(0, ln((N − df + 0.5) / (df + 0.5))). Over the corpus of the two documents
"aa bb" and "aa cc" (so N = 2), the token "bb" has df = 1: the specified
formula yields max(0, ln(1.5 / 1.5)) = max(0, ln 1) = 0, but the code, whose
division by (df + 0.5) stands outside the logarithm, yields
max(0, ln(1.5) / 1.5) = ln(1.5) / 1.5 > 0. -/
theorem calculateIDF_ne_spec_formula :
    0 < calculateIDF (NewBM25Calculator sampleTok ["aa bb", "aa cc"]) "bb" ∧
    max 0 (Real.log ((2 - 1 + 0.5) / (1 + 0.5))) = (0 : ℝ) := by
  constructor
  · have ht : (NewBM25Calculator sampleTok ["aa bb", "aa cc"]).totalDocs = 2 := rfl
    have hdf : (NewBM25Calculator sampleTok ["aa bb", "aa cc"]).docFreq "bb" = 1 := by
      decide
    simp only [calculateIDF, ht, hdf]
    norm_num
    exact Real.log_pos (by norm_num)
  · have h1 : ((2:ℝ) - 1 + 0.5) / (1 + 0.5) = 1 := by norm_num
    rw [h1, Real.log_one, max_self]

/-! ## Streaming loops (chat_service_impl.go and cmd/main.go) -/

/-- One result of streamReader.Recv() in ProcessUserInputStream: a message
with its content and the names of its tool calls, or a receive error. The
eino stream signals end of stream through an error as well, and the code
treats every receive error alike by leaving the loop. -/
inductive RecvResult where
  | msg (content : String) (toolCalls : List String)
  | recvErr

/-- Text appended to fullContent for one received message: the concatenated
tool-call markers when tool calls are present, the raw content otherwise. -/
def chunkText (content : String) (toolCalls : List String) : String :=
  if toolCalls.isEmpty then content
  else String.join (toolCalls.map (fun n => "[调用工具: " ++ n ++ "]"))

/-- Exit reason of a streaming loop. starved is a model artifact for an
exhausted control schedule. -/
inductive LoopExit where
  | stopped
  | endOfStream
  | starved
deriving DecidableEq

/-- The streaming loop of ProcessUserInputStream (chat_service_impl.go lines
191 to 222): each iteration consults controlCallback — modelled by the next
(isPaused, isStopped) pair of the schedule — breaks when stopped, skips
receiving while paused, and otherwise receives once, appending the chunk
text to the buffer; a receive error leaves the loop. Returns the buffer, the
number of Close calls issued by the loop body — the body contains none, so
every arm contributes zero — and the exit reason. streamCallback is assumed
to succeed; the claims treated here do not involve callback failures. -/
def processStreamLoop : List (Bool × Bool) → List RecvResult → String →
    String × Nat × LoopExit
  | [], _, buf => (buf, 0, .starved)
  | (_, true) :: _, _, buf => (buf, 0, .stopped)
  | (true, false) :: ctl, stream, buf => processStreamLoop ctl stream buf
  | (false, false) :: ctl, stream, buf =>
    match stream with
    | [] => (buf, 0, .endOfStream)
    | .recvErr :: _ => (buf, 0, .endOfStream)
    | .msg content toolCalls :: rest =>
        processStreamLoop ctl rest (buf ++ chunkText content toolCalls)

/-- ProcessUserInputStream once a stream reader was obtained: runs the loop
and adds the single deferred streamReader.Close() that runs on every exit
path of the function. Returns the accumulated content and the total number
of Close calls the stream reader receives. -/
def ProcessUserInputStream (ctl : List (Bool × Bool)) (stream : List RecvResult) :
    String × Nat :=
  let r := processStreamLoop ctl stream ""
  (r.1, r.2.1 + 1)

/-- The loop body of ProcessUserInputStream never closes the stream reader. -/
lemma processStreamLoop_closes (ctl : List (Bool × Bool)) :
    ∀ stream buf, (processStreamLoop ctl stream buf).2.1 = 0 := by
  induction ctl with
  | nil => intro stream buf; rfl
  | cons head tail ih =>
    intro stream buf
    obtain ⟨p, s⟩ := head
    cases s
    · cases p
      · cases stream with
        | nil => rfl
        | cons r rest =>
          cases r with
          | msg content toolCalls => exact ih rest _
          | recvErr => rfl
      · exact ih stream buf
    · cases p <;> rfl

/-- Events of one iteration of the streaming loop in cmd/main.go. -/
inductive MainStep where
  | stopNow       -- the outer select finds a stop signal pending
  | pausedResume  -- isPaused was set; the paused wait ends with a pauseChan delivery
  | pausedStop    -- isPaused was set; the paused wait ends with a stopChan delivery
  | recv          -- no stop pending and not paused: one streamReader.Recv()

/-- One result of streamReader.Recv() in cmd/main.go: a content chunk,
io.EOF, or another receive error; both error cases leave the loop. -/
inductive MainRecv where
  | chunk (s : String)
  | eof
  | recvErr

/-- The streaming loop of cmd/main.go (lines 152 to 188): a pending stop
closes the reader explicitly and leaves the loop, a stop arriving during the
paused wait does the same, a resume delivery re-checks the flag without
receiving, and recv appends the received content; io.EOF or a receive error
leaves the loop without an explicit close. Returns the accumulated content,
the number of explicit streamReader.Close() calls and the exit reason. -/
def mainStreamLoop : List MainStep → List MainRecv → String → String × Nat × LoopExit
  | [], _, buf => (buf, 0, .starved)
  | .stopNow :: _, _, buf => (buf, 1, .stopped)
  | .pausedStop :: _, _, buf => (buf, 1, .stopped)
  | .pausedResume :: steps, stream, buf => mainStreamLoop steps stream buf
  | .recv :: steps, stream, buf =>
    match stream with
    | [] => (buf, 0, .endOfStream)
    | .eof :: _ => (buf, 0, .endOfStream)
    | .recvErr :: _ => (buf, 0, .endOfStream)
    | .chunk s :: rest => mainStreamLoop steps rest (buf ++ s)

/-- One full streaming turn of cmd/main.go: the loop, plus the Close
registered by the defer at line 106 inside the for loop, which Go runs on
the same stream reader when main returns. Returns the accumulated content
and the total number of Close calls the stream reader receives. -/
def mainTurn (steps : List MainStep) (stream : List MainRecv) : String × Nat :=
  let r := mainStreamLoop steps stream ""
  (r.1, r.2.1 + 1)

/-- C2: close-call accounting of the two streaming loops. In
ProcessUserInputStream the stream reader is closed exactly once on every
exit path (solely by the deferred Close). In cmd/main.go, the turn of the
concrete stop scenario — increments "Hel", "lo", " world" with a stop after
the first increment — accumulates "Hel" but closes the stream reader twice:
once explicitly on the stop path and once more by the deferred Close, so the
claimed exactly-once release fails there. -/
theorem streamReader_close_counts :
    (∀ ctl stream, (ProcessUserInputStream ctl stream).2 = 1) ∧
    mainTurn [MainStep.recv, MainStep.stopNow]
        [MainRecv.chunk "Hel", MainRecv.chunk "lo", MainRecv.chunk " world"] =
      ("Hel", 2) := by
  constructor
  · intro ctl stream
    show (processStreamLoop ctl stream "").2.1 + 1 = 1
    rw [processStreamLoop_closes]
  · rfl

/-- C5: while paused, the streaming loops neither receive nor append — any
run of consecutive paused iterations (paused controlCallback results in
ProcessUserInputStream, resume-free pauseChan wakeups in cmd/main.go) leaves
the buffer and the unconsumed stream exactly as they were. -/
theorem paused_no_append_no_recv :
    (∀ k ctl stream buf,
      processStreamLoop (List.replicate k (true, false) ++ ctl) stream buf =
        processStreamLoop ctl stream buf) ∧
    (∀ k steps stream buf,
      mainStreamLoop (List.replicate k MainStep.pausedResume ++ steps) stream buf =
        mainStreamLoop steps stream buf) := by
  constructor
  · intro k
    induction k with
    | zero => intro ctl stream buf; rfl
    | succ n ih =>
      intro ctl stream buf
      rw [List.replicate_succ, List.cons_append]
      exact ih ctl stream buf
  · intro k
    induction k with
    | zero => intro steps stream buf; rfl
    | succ n ih =>
      intro steps stream buf
      rw [List.replicate_succ, List.cons_append]
      exact ih steps stream buf

/-! ## ProcessUserInput (chat_service_impl.go) and the model gate -/

/-- ProcessUserInput with the outcomes of its collaborator calls made
explicit, in the order the function performs them: history load (an error
falls back to the empty history and continues), template Format (an error
aborts the turn), agent.Stream (an error aborts the turn; success delivers
the contents received before the first receive error, which the non-stream
receive loop concatenates), and SaveChatHistory, whose error is only logged
before the function returns the accumulated content with a nil error. -/
def ProcessUserInput {E H M : Type} (loadRes : Except E H) (emptyHistory : H)
    (fmtRes : Except E M) (streamRes : Except E (List String)) (saveRes : Option E) :
    Except E String :=
  let _chatHistory := match loadRes with
    | .error _ => emptyHistory
    | .ok h => h
  match fmtRes with
  | .error e => .error e
  | .ok _ =>
    match streamRes with
    | .error e => .error e
    | .ok chunks =>
      let resultContent := String.join chunks
      match saveRes with
      | some _ => .ok resultContent
      | none => .ok resultContent

/-- C8: once a reply has been generated, ProcessUserInput returns the
accumulated text with a nil error whatever the outcome of the history save;
in particular a failed save returns exactly what a successful save does. -/
theorem processUserInput_save_failure_nonfatal {E H M : Type} (loadRes : Except E H)
    (emptyHistory : H) (m : M) (chunks : List String) (saveRes : Option E) (e : E) :
    ProcessUserInput loadRes emptyHistory (Except.ok m) (Except.ok chunks) saveRes =
      Except.ok (String.join chunks) ∧
    ProcessUserInput loadRes emptyHistory (Except.ok m) (Except.ok chunks) (some e) =
      ProcessUserInput loadRes emptyHistory (Except.ok m) (Except.ok chunks) none := by
  refine ⟨?_, rfl⟩
  cases saveRes <;> rfl

/-- isModelSupportToolCall over the two model-name sets parsed from the
configuration by initModelSupportConfig: a name found in the unsupported set
answers false; otherwise a name found in the supported set answers true;
otherwise the default answer is false. Go map membership is modelled by list
membership. -/
def isModelSupportToolCall (unsupported supported : List String)
    (modelName : String) : Bool :=
  if modelName ∈ unsupported then false
  else if modelName ∈ supported then true
  else false

/-- C9: isModelSupportToolCall answers true only for names of the supported
set; a name in both sets answers false (the unsupported set takes
precedence) and a name in neither set answers false (default deny). -/
theorem isModelSupportToolCall_spec (unsupported supported : List String)
    (modelName : String) :
    (isModelSupportToolCall unsupported supported modelName = true →
      modelName ∈ supported) ∧
    (modelName ∈ unsupported → modelName ∈ supported →
      isModelSupportToolCall unsupported supported modelName = false) ∧
    (modelName ∉ unsupported → modelName ∉ supported →
      isModelSupportToolCall unsupported supported modelName = false) := by
  by_cases hu : modelName ∈ unsupported <;> by_cases hs : modelName ∈ supported <;>
    simp [isModelSupportToolCall, hu, hs]

/-- Witness for C9 on concrete lists: "m1" sits in both sets and is denied,
"m3" sits in neither and is denied, and the affirmative answer for "m2"
certifies membership of the supported set. -/
theorem isModelSupportToolCall_spec_witness :
    isModelSupportToolCall ["m1"] ["m1", "m2"] "m1" = false ∧
    isModelSupportToolCall ["m1"] ["m1", "m2"] "m3" = false ∧
    "m2" ∈ ["m1", "m2"] :=
  ⟨(isModelSupportToolCall_spec ["m1"] ["m1", "m2"] "m1").2.1 (by decide) (by decide),
   (isModelSupportToolCall_spec ["m1"] ["m1", "m2"] "m3").2.2 (by decide) (by decide),
   (isModelSupportToolCall_spec ["m1"] ["m1", "m2"] "m2").1 (by decide)⟩

/-! ## FilterRelevantHistory (package internal/chat) -/

/-- Modelled from the spec: the package internal/chat implementing
FilterRelevantHistory is not under src; only its call sites are. Following
spec section 4.2, the filter scores every message of the history against the
current query with the active strategy, retains the highest-scoring messages
up to the budget, and re-sorts the selection into chronological order.
Messages, queries and the relevance strategy are abstract parameters;
relevance values are rationals. The selection sorts the enumerated history
by descending score, keeps the first budget entries, and restricts the
history to the selected positions. -/
def FilterRelevantHistory {Q α : Type} (rel : Q → α → ℚ) (history : List α)
    (query : Q) (budget : Nat) : List α :=
  let sorted := history.enum.insertionSort (fun p q => rel query q.2 ≤ rel query p.2)
  let chosen := (sorted.take budget).map Prod.fst
  (history.enum.filter (fun p => decide (p.1 ∈ chosen))).map Prod.snd

/-- Restricting the enumerated history to any set of positions and dropping
the indices yields a subsequence of the history. -/
lemma filter_enum_map_snd_sublist {α : Type} (history : List α) (chosen : List Nat) :
    ((history.enum.filter (fun p => decide (p.1 ∈ chosen))).map Prod.snd).Sublist history := by
  have h1 := (List.filter_sublist (l := history.enum)
    (p := fun p => decide (p.1 ∈ chosen))).map Prod.snd
  rwa [List.enum_map_snd] at h1

/-- Restricting the enumerated history to a set of positions keeps at most
that many messages, the indices of the history being unique. -/
lemma filter_enum_length_le {α : Type} (history : List α) (chosen : List Nat) :
    ((history.enum.filter (fun p => decide (p.1 ∈ chosen))).map Prod.snd).length ≤
      chosen.length := by
  rw [List.length_map]
  have hFsub : ((history.enum.filter (fun p => decide (p.1 ∈ chosen))).map Prod.fst).Sublist
      (history.enum.map Prod.fst) :=
    (List.filter_sublist _).map _
  have hFnodup : ((history.enum.filter (fun p => decide (p.1 ∈ chosen))).map Prod.fst).Nodup := by
    apply hFsub.nodup
    rw [List.enum_map_fst]
    exact List.nodup_range _
  have hsubset : ((history.enum.filter (fun p => decide (p.1 ∈ chosen))).map Prod.fst) ⊆
      chosen := by
    intro x hx
    simp only [List.mem_map, List.mem_filter] at hx
    obtain ⟨p, ⟨hp, hmem⟩, rfl⟩ := hx
    exact of_decide_eq_true hmem
  have hle := (hFnodup.subperm hsubset).length_le
  rw [List.length_map] at hle
  exact hle

/-- C7: FilterRelevantHistory returns a subsequence of the history in its
original order, of length at most the budget, and returns the whole history
unchanged when the budget covers its length. -/
theorem filterRelevantHistory_spec {Q α : Type} (rel : Q → α → ℚ) (history : List α)
    (query : Q) (budget : Nat) :
    (FilterRelevantHistory rel history query budget).Sublist history ∧
    (FilterRelevantHistory rel history query budget).length ≤ budget ∧
    (history.length ≤ budget → FilterRelevantHistory rel history query budget = history) := by
  have hperm : (history.enum.insertionSort
      (fun p q => rel query q.2 ≤ rel query p.2)).Perm history.enum :=
    List.perm_insertionSort _ _
  have hpermfst : ((history.enum.insertionSort
      (fun p q => rel query q.2 ≤ rel query p.2)).map Prod.fst).Perm
      (List.range history.length) := by
    have h := hperm.map Prod.fst
    rwa [List.enum_map_fst] at h
  refine ⟨filter_enum_map_snd_sublist history _, ?_, ?_⟩
  · apply le_trans (filter_enum_length_le history _)
    rw [List.length_map]
    exact List.length_take_le _ _
  · intro hbudget
    have hlen : (history.enum.insertionSort
        (fun p q => rel query q.2 ≤ rel query p.2)).length ≤ budget := by
      rw [hperm.length_eq, List.enum_length]
      exact hbudget
    simp only [FilterRelevantHistory]
    rw [List.take_of_length_le hlen]
    have hall : ∀ p ∈ history.enum,
        (fun p : Nat × α => decide (p.1 ∈ ((history.enum.insertionSort
          (fun p q => rel query q.2 ≤ rel query p.2)).map Prod.fst))) p = true := by
      intro p hp
      apply decide_eq_true
      apply hpermfst.mem_iff.mpr
      rw [List.mem_range]
      have hmem : p.1 ∈ history.enum.map Prod.fst := List.mem_map_of_mem _ hp
      rwa [List.enum_map_fst, List.mem_range] at hmem
    rw [List.filter_eq_self.mpr hall, List.enum_map_snd]

/-- Witness for C7: a three-message history filtered with budget five stays
within the budget and comes back unchanged. -/
theorem filterRelevantHistory_spec_witness :
    (FilterRelevantHistory (fun (_ : Unit) (_ : String) => (0:ℚ)) ["u", "v", "w"] () 5).length
        ≤ 5 ∧
    FilterRelevantHistory (fun (_ : Unit) (_ : String) => (0:ℚ)) ["u", "v", "w"] () 5 =
      ["u", "v", "w"] :=
  ⟨(filterRelevantHistory_spec (fun _ _ => 0) ["u", "v", "w"] () 5).2.1,
   (filterRelevantHistory_spec (fun _ _ => 0) ["u", "v", "w"] () 5).2.2 (by decide)⟩

/-! ## base64Encode (services/email/email_service.go) -/

/-- The alphabet string of base64Encode, as a list of characters. -/
def base64Chars : List Char :=
  ['A', 'B', 'C', 'D', 'E', 'F', 'G', 'H', 'I', 'J', 'K', 'L', 'M',
   'N', 'O', 'P', 'Q', 'R', 'S', 'T', 'U', 'V', 'W', 'X', 'Y', 'Z',
   'a', 'b', 'c', 'd', 'e', 'f', 'g', 'h', 'i', 'j', 'k', 'l', 'm',
   'n', 'o', 'p', 'q', 'r', 's', 't', 'u', 'v', 'w', 'x', 'y', 'z',
   '0', '1', '2', '3', '4', '5', '6', '7', '8', '9', '+', '/']

/-- Indexing base64Chars; every index used by the encoder is masked below 64,
so the default is never reached. -/
def b64digit (k : Nat) : Char := base64Chars.getD k 'A'

/-- base64Encode of email_service.go over the bytes of the input: each loop
iteration takes up to three bytes, zero-padding the triplet, packs them as
total = a shl 16 or b shl 8 or c, emits the two high six-bit groups, then the
third group when a second input byte existed and the fourth when a third
existed, padding with the equals sign otherwise. Byte values are naturals
below 256. -/
def base64Encode : List Nat → List Char
  | [] => []
  | [a] =>
    let b := 0
    let c := 0
    let total := ((a <<< 16) ||| (b <<< 8)) ||| c
    [b64digit ((total >>> 18) &&& 63), b64digit ((total >>> 12) &&& 63), '=', '=']
  | [a, b] =>
    let c := 0
    let total := ((a <<< 16) ||| (b <<< 8)) ||| c
    [b64digit ((total >>> 18) &&& 63), b64digit ((total >>> 12) &&& 63),
      b64digit ((total >>> 6) &&& 63), '=']
  | a :: b :: c :: rest =>
    let total := ((a <<< 16) ||| (b <<< 8)) ||| c
    b64digit ((total >>> 18) &&& 63) :: b64digit ((total >>> 12) &&& 63) ::
      b64digit ((total >>> 6) &&& 63) :: b64digit (total &&& 63) :: base64Encode rest

/-- Index of a character in the base64 alphabet. -/
def b64index (ch : Char) : Option Nat := base64Chars.indexOf? ch

/-- Modelled from the spec side of the claim: a reference RFC 4648 decoder.
Groups of four alphabet characters decode to three bytes; a final group may
carry one or two padding characters, decoding to one or two bytes; padding
anywhere else, a character outside the alphabet, or a length not a multiple
of four is rejected. -/
def base64Decode : List Char → Option (List Nat)
  | [] => some []
  | c1 :: c2 :: c3 :: c4 :: rest =>
    (b64index c1).bind (fun i1 =>
      (b64index c2).bind (fun i2 =>
        if c3 = '=' then
          if c4 = '=' ∧ rest = [] then some [(i1 <<< 2) ||| (i2 >>> 4)] else none
        else
          (b64index c3).bind (fun i3 =>
            if c4 = '=' then
              if rest = [] then
                some [(i1 <<< 2) ||| (i2 >>> 4), ((i2 &&& 15) <<< 4) ||| (i3 >>> 2)]
              else none
            else
              (b64index c4).bind (fun i4 =>
                (base64Decode rest).map (fun tail =>
                  ((i1 <<< 2) ||| (i2 >>> 4)) :: (((i2 &&& 15) <<< 4) ||| (i3 >>> 2)) ::
                    ((((i3 &&& 3) <<< 6) ||| i4) :: tail))))))
  | _ => none

/-- Looking up an encoded digit recovers its six-bit value. -/
lemma b64index_b64digit : ∀ k, k < 64 → b64index (b64digit k) = some k := by decide

/-- No alphabet character is the padding character. -/
lemma b64digit_ne_pad : ∀ k, k < 64 → b64digit k ≠ '=' := by decide

/-- Bitwise or acts as addition when the low bits of the left operand are
clear and the right operand fits in them. -/
lemma lor_eq_add (x y n : Nat) (hx : x % n = 0) (hy : y < n) (hn : ∃ k, n = 2 ^ k) :
    x ||| y = x + y := by
  obtain ⟨k, rfl⟩ := hn
  obtain ⟨q, rfl⟩ := Nat.dvd_of_mod_eq_zero hx
  apply Nat.eq_of_testBit_eq
  intro j
  rw [Nat.testBit_lor]
  have h0 : (0:Nat) < 2 ^ k := Nat.pos_pow_of_pos k (by omega)
  have h2 : Nat.testBit (2 ^ k * q) j = if j < k then false else Nat.testBit q (j - k) := by
    have h := Nat.testBit_mul_pow_two_add q h0 j
    rw [Nat.add_zero] at h
    simpa using h
  have h1 : Nat.testBit (2 ^ k * q + y) j =
      if j < k then Nat.testBit y j else Nat.testBit q (j - k) :=
    Nat.testBit_mul_pow_two_add q hy j
  rw [h1, h2]
  rcases Nat.lt_or_ge j k with hj | hj
  · simp [hj]
  · have hyj : Nat.testBit y j = false := by
      apply Nat.testBit_lt_two_pow
      exact lt_of_lt_of_le hy (Nat.pow_le_pow_right (by omega) hj)
    simp [Nat.not_lt.mpr hj, hyj]

/-- The packed 24-bit group equals its arithmetic value. -/
lemma encode_total_eq (a b c : Nat) (hb : b < 256) (hc : c < 256) :
    ((a <<< 16) ||| (b <<< 8)) ||| c = a * 65536 + b * 256 + c := by
  have e1 : a <<< 16 = a * 65536 := by
    rw [Nat.shiftLeft_eq]
  have e2 : b <<< 8 = b * 256 := by
    rw [Nat.shiftLeft_eq]
  rw [e1, e2]
  have h1 : a * 65536 ||| b * 256 = a * 65536 + b * 256 := by
    apply lor_eq_add _ _ 65536 (by omega) (by omega) ⟨16, by norm_num⟩
  rw [h1]
  apply lor_eq_add _ _ 256 (by omega) (by omega) ⟨8, by norm_num⟩

/-- First six-bit group of the packed 24-bit value. -/
lemma digit18_eq (a b c : Nat) (ha : a < 256) (hb : b < 256) (hc : c < 256) :
    ((a * 65536 + b * 256 + c) >>> 18) &&& 63 = a / 4 := by
  rw [Nat.shiftRight_eq_div_pow,
    show (63:Nat) = 2 ^ 6 - 1 by norm_num, Nat.and_pow_two_sub_one_eq_mod]
  show (a * 65536 + b * 256 + c) / 262144 % 64 = a / 4
  omega

/-- Second six-bit group of the packed 24-bit value. -/
lemma digit12_eq (a b c : Nat) (hb : b < 256) (hc : c < 256) :
    ((a * 65536 + b * 256 + c) >>> 12) &&& 63 = a % 4 * 16 + b / 16 := by
  rw [Nat.shiftRight_eq_div_pow,
    show (63:Nat) = 2 ^ 6 - 1 by norm_num, Nat.and_pow_two_sub_one_eq_mod]
  show (a * 65536 + b * 256 + c) / 4096 % 64 = a % 4 * 16 + b / 16
  omega

/-- Third six-bit group of the packed 24-bit value. -/
lemma digit6_eq (a b c : Nat) (hb : b < 256) (hc : c < 256) :
    ((a * 65536 + b * 256 + c) >>> 6) &&& 63 = b % 16 * 4 + c / 64 := by
  rw [Nat.shiftRight_eq_div_pow,
    show (63:Nat) = 2 ^ 6 - 1 by norm_num, Nat.and_pow_two_sub_one_eq_mod]
  show (a * 65536 + b * 256 + c) / 64 % 64 = b % 16 * 4 + c / 64
  omega

/-- Fourth six-bit group of the packed 24-bit value. -/
lemma digit0_eq (a b c : Nat) (hb : b < 256) (hc : c < 256) :
    (a * 65536 + b * 256 + c) &&& 63 = c % 64 := by
  rw [show (63:Nat) = 2 ^ 6 - 1 by norm_num, Nat.and_pow_two_sub_one_eq_mod]
  show (a * 65536 + b * 256 + c) % 64 = c % 64
  omega

/-- RFC reconstruction of the first byte from the first two groups. -/
lemma decode_byte1 (a b : Nat) (hb : b < 256) :
    ((a / 4) <<< 2) ||| ((a % 4 * 16 + b / 16) >>> 4) = a := by
  have h1 : (a % 4 * 16 + b / 16) >>> 4 = a % 4 := by
    rw [Nat.shiftRight_eq_div_pow]
    show (a % 4 * 16 + b / 16) / 16 = a % 4
    omega
  rw [h1, Nat.shiftLeft_eq]
  show a / 4 * 4 ||| a % 4 = a
  rw [lor_eq_add _ _ 4 (by omega) (by omega) ⟨2, by norm_num⟩]
  omega

/-- RFC reconstruction of the second byte from the middle two groups. -/
lemma decode_byte2 (a b c : Nat) (hb : b < 256) (hc : c < 256) :
    (((a % 4 * 16 + b / 16) &&& 15) <<< 4) ||| ((b % 16 * 4 + c / 64) >>> 2) = b := by
  have h1 : (a % 4 * 16 + b / 16) &&& 15 = b / 16 := by
    rw [show (15:Nat) = 2 ^ 4 - 1 by norm_num, Nat.and_pow_two_sub_one_eq_mod]
    show (a % 4 * 16 + b / 16) % 16 = b / 16
    omega
  have h2 : (b % 16 * 4 + c / 64) >>> 2 = b % 16 := by
    rw [Nat.shiftRight_eq_div_pow]
    show (b % 16 * 4 + c / 64) / 4 = b % 16
    omega
  rw [h1, h2, Nat.shiftLeft_eq]
  show b / 16 * 16 ||| b % 16 = b
  rw [lor_eq_add _ _ 16 (by omega) (by omega) ⟨4, by norm_num⟩]
  omega

/-- RFC reconstruction of the third byte from the last two groups. -/
lemma decode_byte3 (b c : Nat) (hc : c < 256) :
    (((b % 16 * 4 + c / 64) &&& 3) <<< 6) ||| (c % 64) = c := by
  have h1 : (b % 16 * 4 + c / 64) &&& 3 = c / 64 := by
    rw [show (3:Nat) = 2 ^ 2 - 1 by norm_num, Nat.and_pow_two_sub_one_eq_mod]
    show (b % 16 * 4 + c / 64) % 4 = c / 64
    omega
  rw [h1, Nat.shiftLeft_eq]
  show c / 64 * 64 ||| c % 64 = c
  rw [lor_eq_add _ _ 64 (by omega) (by omega) ⟨6, by norm_num⟩]
  omega

/-- Decoding a full group of four alphabet characters prepends the three
reconstructed bytes to the decoding of the remainder. -/
lemma base64Decode_group (d18 d12 d6 d0 : Nat) (h18 : d18 < 64) (h12 : d12 < 64)
    (h6 : d6 < 64) (h0 : d0 < 64) (rest : List Char) :
    base64Decode (b64digit d18 :: b64digit d12 :: b64digit d6 :: b64digit d0 :: rest) =
      (base64Decode rest).map (fun tail =>
        ((d18 <<< 2) ||| (d12 >>> 4)) :: (((d12 &&& 15) <<< 4) ||| (d6 >>> 2)) ::
          ((((d6 &&& 3) <<< 6) ||| d0) :: tail)) := by
  unfold base64Decode
  rw [b64index_b64digit _ h18, b64index_b64digit _ h12, b64index_b64digit _ h6,
    b64index_b64digit _ h0]
  simp [b64digit_ne_pad _ h6, b64digit_ne_pad _ h0]
  rw [base64Decode.eq_def]

/-- Decoding a final group with two padding characters yields the single
reconstructed byte. -/
lemma base64Decode_pad2 (d18 d12 : Nat) (h18 : d18 < 64) (h12 : d12 < 64) :
    base64Decode [b64digit d18, b64digit d12, '=', '='] =
      some [(d18 <<< 2) ||| (d12 >>> 4)] := by
  unfold base64Decode
  rw [b64index_b64digit _ h18, b64index_b64digit _ h12]
  simp

/-- Decoding a final group with one padding character yields the two
reconstructed bytes. -/
lemma base64Decode_pad1 (d18 d12 d6 : Nat) (h18 : d18 < 64) (h12 : d12 < 64)
    (h6 : d6 < 64) :
    base64Decode [b64digit d18, b64digit d12, b64digit d6, '='] =
      some [(d18 <<< 2) ||| (d12 >>> 4), ((d12 &&& 15) <<< 4) ||| (d6 >>> 2)] := by
  unfold base64Decode
  rw [b64index_b64digit _ h18, b64index_b64digit _ h12, b64index_b64digit _ h6]
  simp [b64digit_ne_pad _ h6]

/-- C10: base64Encode produces the RFC 4648 encoding of its input bytes: the
output length is four times the number of three-byte groups rounded up, the
final partial group is padded with one or two equals signs, and the
reference decoder recovers exactly the input. -/
theorem base64Encode_rfc (data : List Nat) :
    (∀ x ∈ data, x < 256) →
    base64Decode (base64Encode data) = some data ∧
    (base64Encode data).length = 4 * ((data.length + 2) / 3) := by
  induction data using base64Encode.induct with
  | case1 =>
    intro _
    exact ⟨rfl, rfl⟩
  | case2 a =>
    intro h
    have ha : a < 256 := h a (by simp)
    constructor
    · simp only [base64Encode]
      rw [encode_total_eq a 0 0 (by norm_num) (by norm_num)]
      rw [digit18_eq a 0 0 ha (by norm_num) (by norm_num),
        digit12_eq a 0 0 (by norm_num) (by norm_num)]
      rw [base64Decode_pad2 _ _ (by omega) (by omega)]
      rw [decode_byte1 a 0 (by norm_num)]
    · simp [base64Encode]
  | case3 a b =>
    intro h
    have ha : a < 256 := h a (by simp)
    have hb : b < 256 := h b (by simp)
    constructor
    · simp only [base64Encode]
      rw [encode_total_eq a b 0 hb (by norm_num)]
      rw [digit18_eq a b 0 ha hb (by norm_num), digit12_eq a b 0 hb (by norm_num),
        digit6_eq a b 0 hb (by norm_num)]
      rw [base64Decode_pad1 _ _ _ (by omega) (by omega) (by omega)]
      rw [decode_byte1 a b hb, decode_byte2 a b 0 hb (by norm_num)]
    · simp [base64Encode]
  | case4 a b c rest ih =>
    intro h
    have ha : a < 256 := h a (by simp)
    have hb : b < 256 := h b (by simp)
    have hc : c < 256 := h c (by simp)
    have hrest : ∀ x ∈ rest, x < 256 := fun x hx => h x (by simp [hx])
    obtain ⟨ih1, ih2⟩ := ih hrest
    constructor
    · simp only [base64Encode]
      rw [encode_total_eq a b c hb hc]
      rw [digit18_eq a b c ha hb hc, digit12_eq a b c hb hc, digit6_eq a b c hb hc,
        digit0_eq a b c hb hc]
      rw [base64Decode_group _ _ _ _ (by omega) (by omega) (by omega) (by omega), ih1]
      simp only [Option.map_some']
      rw [decode_byte1 a b hb, decode_byte2 a b c hb hc, decode_byte3 b c hc]
    · simp only [base64Encode, List.length_cons, ih2]
      omega

/-- Witness for C10: the bytes of the string "Man" encode to "TWFu", decode
back to themselves, and the output length is four. -/
theorem base64Encode_rfc_witness :
    base64Decode (base64Encode [77, 97, 110]) = some [77, 97, 110] ∧
    (base64Encode [77, 97, 110]).length = 4 * (([77, 97, 110].length + 2) / 3) :=
  base64Encode_rfc [77, 97, 110] (by decide)

/-! ## Determinism analysis of ExtractKeywords -/

/-- Inserting an element whose score differs from every score of the list
places it identically under the strict comparator of sort.Slice and under
its total counterpart. -/
lemma orderedInsert_strict_eq (a : String × ℝ) :
    ∀ l : List (String × ℝ), (∀ b ∈ l, a.2 ≠ b.2) →
      List.orderedInsert (fun x y => x.2 > y.2) a l =
        List.orderedInsert (fun x y => y.2 ≤ x.2) a l
  | [], _ => rfl
  | b :: t, h => by
    simp only [List.orderedInsert]
    by_cases hab : a.2 > b.2
    · rw [if_pos hab, if_pos (le_of_lt hab)]
    · have hne : a.2 ≠ b.2 := h b (by simp)
      have hlt : a.2 < b.2 := lt_of_le_of_ne (not_lt.mp hab) hne
      rw [if_neg hab, if_neg (not_le.mpr hlt)]
      rw [orderedInsert_strict_eq a t (fun x hx => h x (by simp [hx]))]

/-- On a list with pairwise distinct scores, insertion sort under the strict
comparator coincides with insertion sort under its total counterpart. -/
lemma insertionSort_strict_eq :
    ∀ l : List (String × ℝ), l.Pairwise (fun x y => x.2 ≠ y.2) →
      List.insertionSort (fun x y => x.2 > y.2) l =
        List.insertionSort (fun x y => y.2 ≤ x.2) l
  | [], _ => rfl
  | a :: t, h => by
    simp only [List.insertionSort]
    obtain ⟨ha, ht⟩ := List.pairwise_cons.mp h
    rw [insertionSort_strict_eq t ht]
    apply orderedInsert_strict_eq
    intro b hb
    exact ha b ((List.perm_insertionSort _ t).subset hb)

/-- Sorting a list with pairwise distinct scores by descending score yields a
list that is strictly decreasing in score (up to equality of elements). -/
lemma sorted_strict_of_pairwise_ne (l : List (String × ℝ))
    (h : l.Pairwise (fun x y => x.2 ≠ y.2)) :
    List.Sorted (fun x y : String × ℝ => y.2 < x.2 ∨ x = y)
      (List.insertionSort (fun x y => y.2 ≤ x.2) l) := by
  haveI : IsTotal (String × ℝ) (fun x y => y.2 ≤ x.2) := ⟨fun a b => le_total b.2 a.2⟩
  haveI : IsTrans (String × ℝ) (fun x y => y.2 ≤ x.2) :=
    ⟨fun a b c hab hbc => le_trans hbc hab⟩
  have hs : List.Sorted (fun x y : String × ℝ => y.2 ≤ x.2)
      (List.insertionSort (fun x y => y.2 ≤ x.2) l) :=
    List.sorted_insertionSort _ l
  have hne : (List.insertionSort (fun x y : String × ℝ => y.2 ≤ x.2) l).Pairwise
      (fun x y => x.2 ≠ y.2) := by
    exact ((List.perm_insertionSort _ l).pairwise_iff (fun hxy => Ne.symm hxy)).mpr h
  exact (hs.and hne).imp (fun hx => Or.inl (lt_of_le_of_ne hx.1 (Ne.symm hx.2)))

/-- C6 amended: when the keyword scores of the distinct tokens are pairwise
different, ExtractKeywords does not depend on the map iteration order: any
two enumeration orders of the distinct tokens give the same output. -/
theorem extractKeywords_deterministic_of_distinct_scores
    (tok : String → List String) (c : BM25Calculator) (text : String) (topN : Nat)
    (o₁ o₂ : List String)
    (h₁ : o₁.Perm (tok text).dedup) (h₂ : o₂.Perm (tok text).dedup)
    (hdist : ((tok text).dedup).Pairwise
      (fun x y => extractScore tok c text x ≠ extractScore tok c text y)) :
    ExtractKeywords tok c o₁ text topN = ExtractKeywords tok c o₂ text topN := by
  haveI : IsAntisymm (String × ℝ) (fun x y : String × ℝ => y.2 < x.2 ∨ x = y) := by
    constructor
    intro a b hab hba
    rcases hab with hab | hab
    · rcases hba with hba | hba
      · exact absurd hab (lt_asymm hba)
      · exact hba.symm
    · exact hab
  have hne1 : (o₁.map (fun w => (w, extractScore tok c text w))).Pairwise
      (fun x y : String × ℝ => x.2 ≠ y.2) := by
    rw [List.pairwise_map]
    exact (h₁.pairwise_iff (fun hxy => Ne.symm hxy)).mpr hdist
  have hne2 : (o₂.map (fun w => (w, extractScore tok c text w))).Pairwise
      (fun x y : String × ℝ => x.2 ≠ y.2) := by
    rw [List.pairwise_map]
    exact (h₂.pairwise_iff (fun hxy => Ne.symm hxy)).mpr hdist
  have hp : (o₁.map (fun w => (w, extractScore tok c text w))).Perm
      (o₂.map (fun w => (w, extractScore tok c text w))) :=
    (h₁.trans h₂.symm).map _
  have key : List.insertionSort (fun x y : String × ℝ => x.2 > y.2)
        (o₁.map (fun w => (w, extractScore tok c text w))) =
      List.insertionSort (fun x y : String × ℝ => x.2 > y.2)
        (o₂.map (fun w => (w, extractScore tok c text w))) := by
    rw [insertionSort_strict_eq _ hne1, insertionSort_strict_eq _ hne2]
    refine List.eq_of_perm_of_sorted ?_ (sorted_strict_of_pairwise_ne _ hne1)
      (sorted_strict_of_pairwise_ne _ hne2)
    exact (List.perm_insertionSort _ _).trans (hp.trans (List.perm_insertionSort _ _).symm)
  simp only [ExtractKeywords]
  rw [key]

/-- Evaluation of calculateIDF at a known document count and document
frequency. -/
lemma calculateIDF_eval (c : BM25Calculator) (w : String) (N df : Nat)
    (hN : c.totalDocs = N) (hdf : c.docFreq w = df) (hN0 : N ≠ 0) (hdf0 : df ≠ 0) :
    calculateIDF c w = max 0 (Real.log ((N : ℝ) - (df : ℝ) + 0.5) / ((df : ℝ) + 0.5)) := by
  simp [calculateIDF, hN, hdf, hN0, hdf0]

/-- C6 counterexample: over the empty corpus every keyword score is zero, so
the two tokens of the text "aa bb" tie; the Go map iteration orders
["aa", "bb"] and ["bb", "aa"] — both valid enumerations of the distinct
tokens, and Go randomizes which one a run observes — make ExtractKeywords
return different sequences, so two runs on the same calculator state need
not return the same ordered keyword sequence. -/
theorem extractKeywords_order_dependent :
    List.Perm ["aa", "bb"] ((sampleTok "aa bb").dedup) ∧
    List.Perm ["bb", "aa"] ((sampleTok "aa bb").dedup) ∧
    ExtractKeywords sampleTok (NewBM25Calculator sampleTok []) ["aa", "bb"] "aa bb" 2 ≠
      ExtractKeywords sampleTok (NewBM25Calculator sampleTok []) ["bb", "aa"] "aa bb" 2 := by
  have hd : (sampleTok "aa bb").dedup = ["aa", "bb"] := by decide
  have hz : ∀ w, extractScore sampleTok (NewBM25Calculator sampleTok []) "aa bb" w = 0 := by
    intro w
    have h0 : (NewBM25Calculator sampleTok []).totalDocs = 0 := rfl
    simp [extractScore, calculateIDF, h0]
  refine ⟨by rw [hd], by rw [hd]; exact List.Perm.swap "aa" "bb" [], ?_⟩
  have e1 : ExtractKeywords sampleTok (NewBM25Calculator sampleTok []) ["aa", "bb"]
      "aa bb" 2 = ["bb", "aa"] := by
    simp [ExtractKeywords, hz]
  have e2 : ExtractKeywords sampleTok (NewBM25Calculator sampleTok []) ["bb", "aa"]
      "aa bb" 2 = ["aa", "bb"] := by
    simp [ExtractKeywords, hz]
  rw [e1, e2]
  simp

/-- Witness for the amended C6 over the corpus of the documents "aa bb" and
"aa": the token "aa" scores zero (its document frequency equals the corpus
size) while "bb" scores strictly positively, so the scores are pairwise
distinct and both enumeration orders of the distinct tokens of "aa bb"
produce the same keyword sequence. -/
theorem extractKeywords_deterministic_witness :
    ExtractKeywords sampleTok (NewBM25Calculator sampleTok ["aa bb", "aa"]) ["aa", "bb"]
        "aa bb" 2 =
      ExtractKeywords sampleTok (NewBM25Calculator sampleTok ["aa bb", "aa"]) ["bb", "aa"]
        "aa bb" 2 := by
  have hd : (sampleTok "aa bb").dedup = ["aa", "bb"] := by decide
  have hidf_aa : calculateIDF (NewBM25Calculator sampleTok ["aa bb", "aa"]) "aa" = 0 := by
    rw [calculateIDF_eval _ "aa" 2 2 rfl (by decide) (by norm_num) (by norm_num)]
    apply max_eq_left
    apply div_nonpos_of_nonpos_of_nonneg
    · have : ((2:ℕ):ℝ) - ((2:ℕ):ℝ) + 0.5 = 0.5 := by norm_num
      rw [this]
      exact le_of_lt (Real.log_neg (by norm_num) (by norm_num))
    · norm_num
  have hidf_bb : 0 < calculateIDF (NewBM25Calculator sampleTok ["aa bb", "aa"]) "bb" := by
    rw [calculateIDF_eval _ "bb" 2 1 rfl (by decide) (by norm_num) (by norm_num)]
    have hq : 0 < Real.log (((2:ℕ):ℝ) - ((1:ℕ):ℝ) + 0.5) / (((1:ℕ):ℝ) + 0.5) := by
      apply div_pos
      · apply Real.log_pos
        norm_num
      · norm_num
    exact lt_max_iff.mpr (Or.inr hq)
  have hs_aa : extractScore sampleTok (NewBM25Calculator sampleTok ["aa bb", "aa"])
      "aa bb" "aa" = 0 := by
    unfold extractScore
    rw [hidf_aa]
    ring
  have hs_bb : 0 < extractScore sampleTok (NewBM25Calculator sampleTok ["aa bb", "aa"])
      "aa bb" "bb" := by
    unfold extractScore
    apply mul_pos (mul_pos hidf_bb ?_) ?_
    · have hc : (sampleTok "aa bb").count "bb" = 1 := by decide
      have hl : (sampleTok "aa bb").length = 2 := by decide
      rw [hc, hl]
      norm_num
    · have ht : (NewBM25Calculator sampleTok ["aa bb", "aa"]).totalDocs = 2 := rfl
      have h3 : ((2:ℕ):ℝ) + 1 = 3 := by norm_num
      rw [ht, h3]
      exact Real.log_pos (by norm_num)
  have hdist : ((sampleTok "aa bb").dedup).Pairwise
      (fun x y => extractScore sampleTok (NewBM25Calculator sampleTok ["aa bb", "aa"])
          "aa bb" x ≠
        extractScore sampleTok (NewBM25Calculator sampleTok ["aa bb", "aa"]) "aa bb" y) := by
    rw [hd]
    refine List.pairwise_cons.mpr ⟨?_, List.pairwise_singleton _ _⟩
    intro y hy
    rw [List.mem_singleton.mp hy, hs_aa]
    exact ne_of_lt hs_bb
  exact extractKeywords_deterministic_of_distinct_scores sampleTok
    (NewBM25Calculator sampleTok ["aa bb", "aa"]) "aa bb" 2 ["aa", "bb"] ["bb", "aa"]
    (by rw [hd]) (by rw [hd]; exact List.Perm.swap "aa" "bb" []) hdist
